import Mathlib

/-!
# Verification of the quad-tree overlay engine and generic dataset facade

Shallow embedding of `GenericQuadTree` (generic quad-tree storage for RDF
quads): the countable hash nodes with their `$_KEYS` / `$_QUADS` counters and
`$_OVERLAY` / `$_BURIED` markers, the overlay engine (`overlay`, `trace`,
`overlayTree`), and the dataset facade accessors (`size`,
`distinctGraphCount`, `distinctSubjectCount`, `distinctC1Graphs`,
`distinctC1Subjects`, `distinctGraphs`, `distinctSubjects`).

A tree node is a JavaScript object: string-keyed own entries plus the two
counter properties (stored under symbols, hence kept apart from the string
entries), the two marker symbols, and a prototype chain.  Property reads go
through the chain (own layer first); `for...in` enumerates own and inherited
enumerable string keys, first occurrence winning; symbol-keyed properties are
never enumerated by `for...in`.  We model a node as its own layer together
with the list of layers of its prototype chain, nearest first.
-/

/-- One object layer: own string-keyed entries (insertion order), own counter
properties (`none` = property absent), and presence of the two marker
symbols. -/
structure Layer (α : Type) where
  entries : List (String × α)
  keyCt : Option Nat
  quadCt : Option Nat
  overlayFlag : Bool
  buriedFlag : Bool
  deriving DecidableEq, Repr

/-- A node: its own layer plus the layers of its prototype chain, nearest
first. -/
structure Node (α : Type) where
  top : Layer α
  protos : List (Layer α)
  deriving DecidableEq, Repr

/-- Own-property read on a single layer. -/
def Layer.get {α : Type} (l : Layer α) (k : String) : Option α :=
  (l.entries.find? (fun pr => pr.1 == k)).map (·.2)

/-- All layers of a node, own layer first. -/
def Node.layers {α : Type} (n : Node α) : List (Layer α) :=
  n.top :: n.protos

/-- Effective property read `n[k]`: first layer of the chain owning `k`. -/
def Node.get {α : Type} (n : Node α) (k : String) : Option α :=
  n.layers.findSome? (fun l => l.get k)

/-- Own string keys of a node (`Object.keys`). -/
def Node.ownKeys {α : Type} (n : Node α) : List String :=
  n.top.entries.map (·.1)

/-- Effective string key set of a node, as enumerated by `for...in`: own keys
plus unshadowed keys inherited through the prototype chain, without
duplicates. -/
def Node.effKeys {α : Type} (n : Node α) : List String :=
  ((n.layers.map (fun l => l.entries.map (·.1))).flatten).dedup

/-- Effective `$_KEYS` read (`n[$_KEYS]`), through the prototype chain. -/
def Node.keyCt {α : Type} (n : Node α) : Option Nat :=
  n.layers.findSome? (·.keyCt)

/-- Effective `$_QUADS` read (`n[$_QUADS]`), through the prototype chain. -/
def Node.quadCt {α : Type} (n : Node α) : Option Nat :=
  n.layers.findSome? (·.quadCt)

/-- Embedding of `GenericQuadTree.overlayTree`: a fresh node with the two
counters set and no string-keyed entries.  The source defaults both
arguments to `0`. -/
def overlayTree {α : Type} (n_keys : Nat := 0) (n_quads : Nat := 0) : Node α :=
  ⟨⟨[], some n_keys, some n_quads, false, false⟩, []⟩

/-- Embedding of `GenericQuadTree.overlay`: `Object.create(src)` yields an
empty object whose prototype is `src`; then `src[$_BURIED] = 1` and
`dst[$_OVERLAY] = 1`.  Returns the post-call state of `src` (first
component) together with the overlay node `dst` (second component); `dst`'s
prototype chain consists of the updated `src` layers. -/
def overlay {α : Type} (src : Node α) : Node α × Node α :=
  let src' : Node α := ⟨{ src.top with buriedFlag := true }, src.protos⟩
  (src', ⟨⟨[], none, none, true, false⟩, src'.layers⟩)

/-- Embedding of `GenericQuadTree.trace`: a fresh plain object; `for...in`
over the overlay copies every effective string key with its effectively-read
value; then `$_KEYS` and `$_QUADS` are copied by effective read.  The marker
symbols are not copied (`for...in` skips symbols). -/
def trace {α : Type} (n : Node α) : Node α :=
  ⟨⟨n.effKeys.filterMap (fun k => (n.get k).map (fun v => (k, v))),
    n.keyCt, n.quadCt, false, false⟩, []⟩

/-- State-passing form of `trace`: the body performs no write to its
argument object, so the post-call state of the argument (second component)
is the input itself. -/
def traceS {α : Type} (n : Node α) : Node α × Node α :=
  (trace n, n)

/-- JavaScript assignment `n[k] = v`: creates or updates an own property
(shadowing any inherited property of the same name); a new key is appended
in insertion order. -/
def Node.setKey {α : Type} (n : Node α) (k : String) (v : α) : Node α :=
  let es := n.top.entries
  let es' := if es.any (fun pr => pr.1 == k)
    then es.map (fun pr => if pr.1 = k then (k, v) else pr)
    else es ++ [(k, v)]
  ⟨{ n.top with entries := es' }, n.protos⟩

/-- JavaScript `delete n[k]`: removes the own property only; inherited
properties are untouched (and become visible again). -/
def Node.delKey {α : Type} (n : Node α) (k : String) : Node α :=
  ⟨{ n.top with entries := n.top.entries.filter (fun pr => pr.1 != k) }, n.protos⟩

/-- An own-key mutation on a node: set (create or overwrite) or remove. -/
inductive MutOp (α : Type) where
  | set (k : String) (v : α)
  | del (k : String)

/-- Apply a sequence of own-key mutations. -/
def applyOps {α : Type} (n : Node α) : List (MutOp α) → Node α
  | [] => n
  | .set k v :: ops => applyOps (n.setKey k v) ops
  | .del k :: ops => applyOps (n.delKey k) ops

/-! ## Basic lemmas on nodes -/

theorem Layer.get_eq_some_mem {α : Type} {l : Layer α} {k : String} {v : α}
    (h : l.get k = some v) : k ∈ l.entries.map (·.1) := by
  unfold Layer.get at h
  rcases hf : l.entries.find? (fun pr => pr.1 == k) with _ | pr
  · rw [hf] at h; simp at h
  · have hmem := List.mem_of_find?_eq_some hf
    have hp := List.find?_some hf
    simp at hp
    exact List.mem_map.mpr ⟨pr, hmem, hp⟩

theorem Layer.get_eq_none_iff {α : Type} {l : Layer α} {k : String} :
    l.get k = none ↔ k ∉ l.entries.map (·.1) := by
  unfold Layer.get
  rw [Option.map_eq_none', List.find?_eq_none]
  constructor
  · intro h hmem
    rcases List.mem_map.mp hmem with ⟨pr, hpr, hk⟩
    have hc := h pr hpr
    simp [hk] at hc
  · intro hnm pr hpr
    simp only [beq_iff_eq]
    intro hk
    exact hnm (List.mem_map.mpr ⟨pr, hpr, hk⟩)

theorem Layer.get_isSome_of_mem {α : Type} {l : Layer α} {k : String}
    (h : k ∈ l.entries.map (·.1)) : (l.get k).isSome := by
  rcases hg : l.get k with _ | v
  · exact absurd (Layer.get_eq_none_iff.mp hg) (by simp [h])
  · simp

/-- A key is effective iff some layer of the chain owns it. -/
theorem Node.mem_effKeys_iff {α : Type} {n : Node α} {k : String} :
    k ∈ n.effKeys ↔ ∃ l ∈ n.layers, k ∈ l.entries.map (·.1) := by
  unfold Node.effKeys
  rw [List.mem_dedup, List.mem_flatten]
  constructor
  · rintro ⟨ks, hks, hk⟩
    rcases List.mem_map.mp hks with ⟨l, hl, rfl⟩
    exact ⟨l, hl, hk⟩
  · rintro ⟨l, hl, hk⟩
    exact ⟨l.entries.map (·.1), List.mem_map.mpr ⟨l, hl, rfl⟩, hk⟩

/-- The effective lookup succeeds exactly on effective keys. -/
theorem Node.get_isSome_iff_mem_effKeys {α : Type} {n : Node α} {k : String} :
    (n.get k).isSome ↔ k ∈ n.effKeys := by
  rw [Node.mem_effKeys_iff]
  unfold Node.get
  constructor
  · intro h
    rcases Option.isSome_iff_exists.mp h with ⟨v, hv⟩
    rcases List.exists_of_findSome?_eq_some hv with ⟨l, hl, hlk⟩
    exact ⟨l, hl, Layer.get_eq_some_mem hlk⟩
  · rintro ⟨l, hl, hk⟩
    rcases Option.isSome_iff_exists.mp (Layer.get_isSome_of_mem hk) with ⟨v, hv⟩
    exact List.findSome?_isSome_iff.mpr ⟨l, hl, by simp [hv]⟩

theorem Node.get_eq_none_of_not_mem_effKeys {α : Type} {n : Node α} {k : String}
    (h : k ∉ n.effKeys) : n.get k = none := by
  rcases hg : n.get k with _ | v
  · rfl
  · exact absurd (Node.get_isSome_iff_mem_effKeys.mp (by simp [hg])) h

/-- `effKeys` has no duplicates. -/
theorem Node.effKeys_nodup {α : Type} (n : Node α) : n.effKeys.Nodup :=
  List.nodup_dedup _

/-! ## The generic dataset facade

`GenericQuadTree` stores the root quads tree `_hc4_quads` (graph key →
triples tree), the constructor-time shortcut `_hc3_trips = hc4_quads['*']`,
and the prefixed-mode flag.  A triples tree is itself a node whose values
(`ProbsHash` subtrees) we leave abstract. -/

structure GenericQuadTree (α : Type) where
  hc4_quads : Node (Node α)
  hc3_trips : Option (Node α)
  prefixed : Bool
  deriving DecidableEq

/-- Embedding of the `GenericQuadTree` constructor: stores the root and
caches `hc4_quads['*']` (an effective read) as the default-graph shortcut. -/
def GenericQuadTree.fromRoot {α : Type} (root : Node (Node α))
    (b_prefixed : Bool := false) : GenericQuadTree α :=
  ⟨root, root.get "*", b_prefixed⟩

/-- Embedding of `get size()`: the root node's effective `$_QUADS` counter. -/
def GenericQuadTree.size {α : Type} (ds : GenericQuadTree α) : Option Nat :=
  ds.hc4_quads.quadCt

/-- Embedding of `distinctGraphCount()`: the root node's effective `$_KEYS`
counter. -/
def GenericQuadTree.distinctGraphCount {α : Type} (ds : GenericQuadTree α) :
    Option Nat :=
  ds.hc4_quads.keyCt

/-- Embedding of `_total_distinct_graphs` / `distinctC1Graphs()`: the set of
graph keys enumerated by `for...in` over the root (insertion-ordered
duplicate-free list). -/
def GenericQuadTree.distinctC1GraphsList {α : Type} (ds : GenericQuadTree α) :
    List String :=
  ds.hc4_quads.effKeys

/-- Embedding of `_total_distinct_subjects` / `distinctC1Subjects()`:
`for...in` over the root, then `for...in` over each graph's triples tree,
collected into one set. -/
def GenericQuadTree.distinctC1SubjectsList {α : Type}
    (ds : GenericQuadTree α) : List String :=
  ((ds.hc4_quads.effKeys).map (fun g =>
    match ds.hc4_quads.get g with
    | some t => t.effKeys
    | none => [])).flatten.dedup

/-- Embedding of `distinctGraphs()`: decode each distinct graph key to a
term; `decode` stands for the external codec `graphFromC1(·, prefixes)`. -/
def GenericQuadTree.distinctGraphsList {α β : Type} (decode : String → β)
    (ds : GenericQuadTree α) : List β :=
  ds.distinctC1GraphsList.map decode

/-- Embedding of `distinctSubjects()`: decode each distinct subject key;
`decode` stands for the external codec `subjectFromC1(·, prefixes)`. -/
def GenericQuadTree.distinctSubjectsList {α β : Type} (decode : String → β)
    (ds : GenericQuadTree α) : List β :=
  ds.distinctC1SubjectsList.map decode

/-- Embedding of `distinctSubjectCount()`: if the root's effective `$_KEYS`
counter is `1`, return the shortcut triples tree's effective `$_KEYS`
counter; otherwise build a set by unioning `Object.keys` (own keys only) of
each graph's triples tree and return its size. -/
def GenericQuadTree.distinctSubjectCount {α : Type}
    (ds : GenericQuadTree α) : Option Nat :=
  if ds.hc4_quads.keyCt = some 1 then ds.hc3_trips.bind Node.keyCt
  else some (((ds.hc4_quads.effKeys).map (fun g =>
    match ds.hc4_quads.get g with
    | some t => t.ownKeys
    | none => [])).flatten.toFinset.card)

/-- State-passing form of `distinctC1Graphs()`: no statement of the body
writes to the tree, so the post-call dataset state is the input. -/
def GenericQuadTree.distinctC1GraphsRun {α : Type} (ds : GenericQuadTree α) :
    List String × GenericQuadTree α :=
  (ds.distinctC1GraphsList, ds)

/-- State-passing form of `distinctC1Subjects()`. -/
def GenericQuadTree.distinctC1SubjectsRun {α : Type}
    (ds : GenericQuadTree α) : List String × GenericQuadTree α :=
  (ds.distinctC1SubjectsList, ds)

/-- State-passing form of `distinctGraphs()`. -/
def GenericQuadTree.distinctGraphsRun {α β : Type} (decode : String → β)
    (ds : GenericQuadTree α) : List β × GenericQuadTree α :=
  (ds.distinctGraphsList decode, ds)

/-- State-passing form of `distinctSubjects()`. -/
def GenericQuadTree.distinctSubjectsRun {α β : Type} (decode : String → β)
    (ds : GenericQuadTree α) : List β × GenericQuadTree α :=
  (ds.distinctSubjectsList decode, ds)

/-- Decidable form of "every graph's triples tree has no unshadowed
inherited subject keys" (own key set = effective key set). -/
def childrenFlat {α : Type} (root : Node (Node α)) : Bool :=
  root.effKeys.all (fun g => ((root.get g).map
    (fun t => decide (t.ownKeys.toFinset = t.effKeys.toFinset))).getD true)

/-- Decidable form of the single-graph side conditions: when the root's
`$_KEYS` counter is `1`, the only effective graph key is `*` and the default
graph's `$_KEYS` counter equals its number of effective subject keys. -/
def singleGraphOk {α : Type} (root : Node (Node α)) : Bool :=
  if root.keyCt = some 1 then
    decide (root.effKeys = ["*"]) &&
      ((root.get "*").map
        (fun t => decide (t.keyCt = some t.effKeys.length))).getD false
  else true

/-- Modelled from the spec: dataset construction (the `empty()` constructor
and the streaming builder are not under `src/`; only the generic facade is).
"The default graph is always present under a reserved key" — the empty
dataset's root tree carries the default graph under the reserved key `*` as
an empty triples tree, with root counters `keyCount = 1`, `quadCount = 0`. -/
def emptyQuadsRoot (α : Type) : Node (Node α) :=
  ⟨⟨[("*", overlayTree 0 0)], some 1, some 0, false, false⟩, []⟩

/-! ## Lemmas about `trace`, `setKey`, `delKey`, `applyOps` -/

theorem get_single_layer {α : Type} (l : Layer α) (k : String) :
    (Node.mk l []).get k = l.get k := by
  unfold Node.get Node.layers
  rw [List.findSome?_cons]
  cases l.get k <;> simp

theorem keyCt_single_layer {α : Type} (l : Layer α) :
    (Node.mk l []).keyCt = l.keyCt := by
  unfold Node.keyCt Node.layers
  rw [List.findSome?_cons]
  cases l.keyCt <;> simp

theorem quadCt_single_layer {α : Type} (l : Layer α) :
    (Node.mk l []).quadCt = l.quadCt := by
  unfold Node.quadCt Node.layers
  rw [List.findSome?_cons]
  cases l.quadCt <;> simp

theorem filterMap_keyed_map_fst {α : Type} (f : String → Option α) :
    ∀ ks : List String, (∀ k ∈ ks, (f k).isSome) →
      (ks.filterMap (fun k => (f k).map (fun v => (k, v)))).map (·.1) = ks
  | [], _ => rfl
  | k :: ks, h => by
    rcases Option.isSome_iff_exists.mp (h k (by simp)) with ⟨v, hv⟩
    simp only [List.filterMap_cons, hv, Option.map_some', List.map_cons]
    rw [filterMap_keyed_map_fst f ks (fun k' hk' => h k' (by simp [hk']))]

theorem find?_filterMap_keyed_mem {α : Type} (f : String → Option α)
    (k0 : String) :
    ∀ ks : List String, k0 ∈ ks → (∀ k ∈ ks, (f k).isSome) →
      (ks.filterMap (fun k => (f k).map (fun v => (k, v)))).find?
        (fun pr => pr.1 == k0) = (f k0).map (fun v => (k0, v))
  | [], h, _ => by simp at h
  | k :: ks, h, hs => by
    rcases Option.isSome_iff_exists.mp (hs k (by simp)) with ⟨v, hv⟩
    by_cases hk : k = k0
    · subst hk
      simp only [List.filterMap_cons, hv, Option.map_some']
      rw [List.find?_cons_of_pos _ (by simp)]
    · have hmem : k0 ∈ ks := by
        rcases List.mem_cons.mp h with h1 | h1
        · exact absurd h1.symm hk
        · exact h1
      simp only [List.filterMap_cons, hv, Option.map_some']
      rw [List.find?_cons_of_neg _ (by simp [hk])]
      exact find?_filterMap_keyed_mem f k0 ks hmem
        (fun k' hk' => hs k' (by simp [hk']))

theorem find?_filterMap_keyed_not_mem {α : Type} (f : String → Option α)
    (k0 : String) :
    ∀ ks : List String, k0 ∉ ks →
      (ks.filterMap (fun k => (f k).map (fun v => (k, v)))).find?
        (fun pr => pr.1 == k0) = none
  | [], _ => rfl
  | k :: ks, h => by
    have hk : k ≠ k0 := fun he => h (by simp [he])
    have hks : k0 ∉ ks := fun hm => h (by simp [hm])
    rcases hv : f k with _ | v
    · simp only [List.filterMap_cons, hv]
      exact find?_filterMap_keyed_not_mem f k0 ks hks
    · simp only [List.filterMap_cons, hv, Option.map_some']
      rw [List.find?_cons_of_neg _ (by simp [hk])]
      exact find?_filterMap_keyed_not_mem f k0 ks hks

/-- `trace` gives the materialized node exactly the effective key set as its
own keys. -/
theorem trace_ownKeys {α : Type} (n : Node α) :
    (trace n).ownKeys = n.effKeys := by
  unfold Node.ownKeys trace
  exact filterMap_keyed_map_fst _ n.effKeys
    (fun k hk => Node.get_isSome_iff_mem_effKeys.mpr hk)

/-- Lookups on the materialized node agree with effective lookups on the
original overlay. -/
theorem trace_get {α : Type} (n : Node α) (k : String) :
    (trace n).get k = n.get k := by
  have htop : (trace n).get k = (trace n).top.get k := get_single_layer _ _
  rw [htop]
  show ((n.effKeys.filterMap (fun k' => (n.get k').map (fun v => (k', v)))).find?
    (fun pr => pr.1 == k)).map (·.2) = n.get k
  by_cases hk : k ∈ n.effKeys
  · rw [find?_filterMap_keyed_mem (fun k' => n.get k') k n.effKeys hk
      (fun k' h' => Node.get_isSome_iff_mem_effKeys.mpr h')]
    cases n.get k <;> simp
  · rw [find?_filterMap_keyed_not_mem (fun k' => n.get k') k n.effKeys hk]
    simp [Node.get_eq_none_of_not_mem_effKeys hk]

theorem trace_keyCt {α : Type} (n : Node α) : (trace n).keyCt = n.keyCt :=
  keyCt_single_layer _

theorem trace_quadCt {α : Type} (n : Node α) : (trace n).quadCt = n.quadCt :=
  quadCt_single_layer _

theorem setKey_protos {α : Type} (n : Node α) (k : String) (v : α) :
    (n.setKey k v).protos = n.protos := rfl

theorem delKey_protos {α : Type} (n : Node α) (k : String) :
    (n.delKey k).protos = n.protos := rfl

theorem applyOps_protos {α : Type} :
    ∀ (ops : List (MutOp α)) (n : Node α), (applyOps n ops).protos = n.protos
  | [], _ => rfl
  | .set k v :: ops, n => by
    rw [applyOps, applyOps_protos ops, setKey_protos]
  | .del k :: ops, n => by
    rw [applyOps, applyOps_protos ops, delKey_protos]

theorem find?_map_overwrite {α : Type} (k : String) (v : α) :
    ∀ es : List (String × α), es.any (fun pr => pr.1 == k) →
      (es.map (fun pr => if pr.1 = k then (k, v) else pr)).find?
        (fun pr => pr.1 == k) = some (k, v)
  | [], h => by simp at h
  | pr :: es, h => by
    rcases pr with ⟨k1, v1⟩
    dsimp only [List.map_cons]
    by_cases hk : k1 = k
    · rw [if_pos hk]
      rw [List.find?_cons_of_pos _ (by simp)]
    · rw [if_neg hk]
      rw [List.find?_cons_of_neg _ (by simp [hk])]
      have h' : es.any (fun pr => pr.1 == k) := by
        rcases List.any_eq_true.mp h with ⟨q, hq, hqk⟩
        rcases List.mem_cons.mp hq with h1 | h1
        · exact absurd (by simpa [h1] using hqk) hk
        · exact List.any_eq_true.mpr ⟨q, h1, hqk⟩
      exact find?_map_overwrite k v es h'

/-- Setting an own key makes its lookup return the new value (shadowing). -/
theorem setKey_get_self {α : Type} (n : Node α) (k : String) (v : α) :
    (n.setKey k v).get k = some v := by
  have htop : (n.setKey k v).top.get k = some v := by
    unfold Node.setKey Layer.get
    by_cases ha : n.top.entries.any (fun pr => pr.1 == k)
    · simp only [if_pos ha]
      rw [find?_map_overwrite k v n.top.entries ha]
      rfl
    · simp only [if_neg ha]
      rw [List.find?_append]
      have hnone : n.top.entries.find? (fun pr => pr.1 == k) = none := by
        rw [List.find?_eq_none]
        intro pr hpr hkk
        exact ha (List.any_eq_true.mpr ⟨pr, hpr, hkk⟩)
      rw [hnone]
      simp
  unfold Node.get Node.layers
  rw [List.findSome?_cons, htop]

/-- When a node owns nothing under `k`, its effective lookup continues in
the prototype chain. -/
theorem get_of_top_none {α : Type} (n : Node α) (k : String)
    (h : n.top.get k = none) :
    n.get k = n.protos.findSome? (fun l => l.get k) := by
  unfold Node.get Node.layers
  rw [List.findSome?_cons, h]

/-! ## Concrete nodes used by witnesses and the counterexample -/

/-- A plain source node: one entry under `b`, counters 1 and 3. -/
def exSourceNode : Node Nat :=
  ⟨⟨[("b", 2)], some 1, some 3, false, false⟩, []⟩

/-- An overlay node derived from `exSourceNode` with an own entry `a`. -/
def exOverlayNode : Node Nat :=
  ((overlay exSourceNode).2).setKey "a" 1

/-- Triples tree owning subject `s1`. -/
def exTripsPlain : Node Unit :=
  ⟨⟨[("s1", ())], some 1, some 1, false, false⟩, []⟩

/-- A second plain triples tree owning subject `s2`. -/
def exTripsPlain2 : Node Unit :=
  ⟨⟨[("s2", ())], some 1, some 1, false, false⟩, []⟩

/-- Overlay triples tree inheriting subject `s2` from a buried source. -/
def exTripsOverlay : Node Unit :=
  ⟨⟨[], none, none, true, false⟩, [⟨[("s2", ())], some 1, some 1, false, true⟩]⟩

/-- Root with two graphs, the second an overlay triples tree with an
inherited (unshadowed) subject key. -/
def exRootTwoGraphs : Node (Node Unit) :=
  ⟨⟨[("*", exTripsPlain), ("g", exTripsOverlay)], some 2, some 2, false, false⟩, []⟩

/-- Root with two graphs whose triples trees are both overlay-free. -/
def exRootFlat : Node (Node Unit) :=
  ⟨⟨[("*", exTripsPlain), ("g", exTripsPlain2)], some 2, some 2, false, false⟩, []⟩

/-! ## Claim theorems -/

/-- C1: for every overlay node `n`, the node returned by `trace(n)` has own
string keys exactly the effective key set of `n` (own keys plus unshadowed
inherited keys), each key mapped to the same child value as the effective
lookup on `n`, and its `keyCount` and `quadCount` counters equal `n`'s
counters: the materialized node's effective view is identical to the
pre-materialization effective view of `n`. -/
theorem trace_materializes_effective_view {α : Type} (n : Node α)
    (h : n.top.overlayFlag = true) :
    (trace n).ownKeys = n.effKeys ∧ (∀ k, (trace n).get k = n.get k) ∧
      (trace n).keyCt = n.keyCt ∧ (trace n).quadCt = n.quadCt :=
  ⟨trace_ownKeys n, fun k => trace_get n k, trace_keyCt n, trace_quadCt n⟩

/-- Witness for C1 at a concrete overlay node. -/
theorem trace_materializes_effective_view_witness :
    (trace exOverlayNode).ownKeys = exOverlayNode.effKeys ∧
      (∀ k, (trace exOverlayNode).get k = exOverlayNode.get k) ∧
      (trace exOverlayNode).keyCt = exOverlayNode.keyCt ∧
      (trace exOverlayNode).quadCt = exOverlayNode.quadCt :=
  trace_materializes_effective_view exOverlayNode (by decide)

/-- C2: for every node `src`, the node `d` returned by `overlay(src)`
delegates lookups: for every key `k` that `d` (even after further own-key
mutations) does not own directly, looking up `k` on `d` yields the same
child as looking up `k` on `src` through its delegation chain; keys later
set directly on `d` shadow `src`'s keys of the same name; and immediately
after the call `src` carries the buried marker. -/
theorem overlay_delegates_lookup {α : Type} (src : Node α)
    (ops : List (MutOp α)) (k : String) (v : α)
    (h : (applyOps (overlay src).2 ops).top.get k = none) :
    (applyOps (overlay src).2 ops).get k = (overlay src).1.get k ∧
      ((applyOps (overlay src).2 ops).setKey k v).get k = some v ∧
      (overlay src).1.top.buriedFlag = true := by
  refine ⟨?_, setKey_get_self _ _ _, rfl⟩
  rw [get_of_top_none _ _ h, applyOps_protos]
  rfl

/-- Witness for C2 at a concrete source and mutation sequence. -/
theorem overlay_delegates_lookup_witness :
    (applyOps (overlay exSourceNode).2 [MutOp.set "c" 7]).get "b" =
        (overlay exSourceNode).1.get "b" ∧
      ((applyOps (overlay exSourceNode).2 [MutOp.set "c" 7]).setKey "b" 5).get "b"
        = some 5 ∧
      (overlay exSourceNode).1.top.buriedFlag = true :=
  overlay_delegates_lookup exSourceNode [MutOp.set "c" 7] "b" 5 (by decide)

/-- C3: `overlay(src)` changes none of `src`'s string-keyed entries nor its
`keyCount` / `quadCount` counters (it only sets the buried marker), and any
sequence of own-key mutations on the derived node never touches the shared
prototype layers (which are `src`'s own data), so reads on `src` observe
the same contents as before the derivation. -/
theorem overlay_preserves_source {α : Type} (src : Node α)
    (ops : List (MutOp α)) :
    (overlay src).1.top.entries = src.top.entries ∧
      (overlay src).1.keyCt = src.keyCt ∧
      (overlay src).1.quadCt = src.quadCt ∧
      (∀ k, (overlay src).1.get k = src.get k) ∧
      (overlay src).1.top.overlayFlag = src.top.overlayFlag ∧
      (applyOps (overlay src).2 ops).protos = (overlay src).2.protos :=
  ⟨rfl, rfl, rfl, fun _ => rfl, rfl, applyOps_protos ops _⟩

/-- C7: `trace(n)` returns a fresh node that carries neither the overlay
marker nor the buried marker, has no prototype chain, and the call leaves
the argument node completely unmodified. -/
theorem trace_returns_unmarked_fresh_node {α : Type} (n : Node α) :
    (traceS n).1.top.overlayFlag = false ∧
      (traceS n).1.top.buriedFlag = false ∧
      (traceS n).1.protos = [] ∧ (traceS n).2 = n :=
  ⟨rfl, rfl, rfl, rfl⟩

/-- C8: the distinct-entity enumerations are read-only and freshly
restartable: every invocation performs a complete fresh traversal (its
output is the traversal list, a finite list), leaves the dataset unchanged,
and re-invocation on the post-call state yields the same output. -/
theorem enumeration_readonly_restartable {α β γ : Type}
    (ds : GenericQuadTree α) (decg : String → β) (decs : String → γ) :
    (ds.distinctC1GraphsRun.2 = ds ∧ ds.distinctC1SubjectsRun.2 = ds ∧
        (ds.distinctGraphsRun decg).2 = ds ∧
        (ds.distinctSubjectsRun decs).2 = ds) ∧
      (ds.distinctC1GraphsRun.2.distinctC1GraphsRun.1 =
          ds.distinctC1GraphsRun.1 ∧
        ds.distinctC1SubjectsRun.2.distinctC1SubjectsRun.1 =
          ds.distinctC1SubjectsRun.1 ∧
        ((ds.distinctGraphsRun decg).2.distinctGraphsRun decg).1 =
          (ds.distinctGraphsRun decg).1 ∧
        ((ds.distinctSubjectsRun decs).2.distinctSubjectsRun decs).1 =
          (ds.distinctSubjectsRun decs).1) ∧
      (ds.distinctC1GraphsRun.1 = ds.distinctC1GraphsList ∧
        ds.distinctC1SubjectsRun.1 = ds.distinctC1SubjectsList) :=
  ⟨⟨rfl, rfl, rfl, rfl⟩, ⟨rfl, rfl, rfl, rfl⟩, rfl, rfl⟩

/-- C9: for every dataset constructed from a root tree carrying the default
graph (as the spec-modelled constructors guarantee), the default graph is
present under the reserved key `*` and the cached shortcut `_hc3_trips`
equals the child stored under that key at construction time; the
spec-modelled empty construction does store the default graph under `*`. -/
theorem default_graph_reserved_key {α : Type} (root : Node (Node α))
    (t : Node α) (h : root.get "*" = some t) :
    "*" ∈ root.effKeys ∧
      (GenericQuadTree.fromRoot root).hc3_trips = some t ∧
      (emptyQuadsRoot α).get "*" = some (overlayTree 0 0) :=
  ⟨Node.get_isSome_iff_mem_effKeys.mp (by simp [h]),
   by simp [GenericQuadTree.fromRoot, h], rfl⟩

/-- Witness for C9 at the spec-modelled empty root. -/
theorem default_graph_reserved_key_witness :
    "*" ∈ (emptyQuadsRoot Unit).effKeys ∧
      (GenericQuadTree.fromRoot (emptyQuadsRoot Unit)).hc3_trips =
        some (overlayTree 0 0) ∧
      (emptyQuadsRoot Unit).get "*" = some (overlayTree 0 0) :=
  default_graph_reserved_key (emptyQuadsRoot Unit) (overlayTree 0 0) rfl

/-- C10: `overlayTree(n_keys, n_quads)` returns a node whose `keyCount`
counter is `n_keys`, whose `quadCount` counter is `n_quads`, and which has
no string-keyed entries; with the default arguments it is an empty node, so
a dataset built over it reports `size` 0 and `distinctGraphCount()` 0 and
enumerates no graphs. -/
theorem overlayTree_fresh_counters {α : Type} (nk nq : Nat) :
    (overlayTree (α := α) nk nq).keyCt = some nk ∧
      (overlayTree (α := α) nk nq).quadCt = some nq ∧
      (overlayTree (α := α) nk nq).ownKeys = [] ∧
      (overlayTree (α := α) nk nq).effKeys = [] ∧
      (GenericQuadTree.fromRoot (α := α) overlayTree).size = some 0 ∧
      (GenericQuadTree.fromRoot (α := α) overlayTree).distinctGraphCount
        = some 0 ∧
      (GenericQuadTree.fromRoot (α := α) overlayTree).distinctC1GraphsList
        = [] ∧
      (∀ (β : Type) (decode : String → β),
        (GenericQuadTree.fromRoot (α := α) overlayTree).distinctGraphsList
          decode = []) :=
  ⟨rfl, rfl, rfl, rfl, rfl, rfl, rfl, fun _ _ => rfl⟩

/-! ## Distinct-count claims -/

theorem toFinset_dedup_list {β : Type} [DecidableEq β] (l : List β) :
    l.dedup.toFinset = l.toFinset := by
  ext x
  simp [List.mem_dedup]

theorem toFinset_flatten_map_congr (gs : List String)
    (f1 f2 : String → List String)
    (h : ∀ g ∈ gs, (f1 g).toFinset = (f2 g).toFinset) :
    ((gs.map f1).flatten).toFinset = ((gs.map f2).flatten).toFinset := by
  induction gs with
  | nil => rfl
  | cons g gs ih =>
    simp only [List.map_cons, List.flatten_cons, List.toFinset_append]
    rw [h g (by simp), ih (fun g' hg' => h g' (by simp [hg']))]

/-- C5: for every dataset whose root `keyCount` counter is maintained (it
equals the number of effective graph keys, as the mutation algorithms
guarantee), `distinctGraphCount()` equals the number of distinct decoded
graph terms yielded by graph enumeration, for every injective codec. -/
theorem distinct_graph_count_matches_enumeration {α β : Type} [DecidableEq β]
    (ds : GenericQuadTree α) (decode : String → β)
    (hctr : ds.hc4_quads.keyCt = some ds.hc4_quads.effKeys.length)
    (hinj : Function.Injective decode) :
    ds.distinctGraphCount =
      some ((ds.distinctGraphsList decode).toFinset.card) := by
  rw [GenericQuadTree.distinctGraphCount, hctr]
  have hnd : (ds.distinctGraphsList decode).Nodup :=
    (Node.effKeys_nodup ds.hc4_quads).map hinj
  rw [List.toFinset_card_of_nodup hnd]
  simp [GenericQuadTree.distinctGraphsList, GenericQuadTree.distinctC1GraphsList]

/-- Witness for C5 at the dataset over the empty root, with the identity
codec. -/
theorem distinct_graph_count_matches_enumeration_witness :
    (GenericQuadTree.fromRoot (emptyQuadsRoot Unit)).distinctGraphCount =
      some (((GenericQuadTree.fromRoot (emptyQuadsRoot Unit)).distinctGraphsList
        (fun s => s)).toFinset.card) :=
  distinct_graph_count_matches_enumeration _ _ (by decide) (fun _ _ hab => hab)

/-- C6 counterexample: the claim "`distinctSubjectCount()` equals the size
of the effective subject enumeration on every dataset, including overlay
graph-level nodes" fails: on `exRootTwoGraphs` the second graph is an
overlay triples tree whose subject `s2` is inherited, `Object.keys` misses
it, and the count is 1 while the effective enumeration has 2 subjects. -/
theorem distinct_subject_count_mismatch :
    (GenericQuadTree.fromRoot exRootTwoGraphs).distinctSubjectCount ≠
      some ((GenericQuadTree.fromRoot
        exRootTwoGraphs).distinctC1SubjectsList.toFinset.card) := by
  decide

/-- C6 (amended): `distinctSubjectCount()` equals the size of the effective
subject enumeration `distinctC1Subjects()` provided no graph's triples tree
carries unshadowed inherited subject keys (its own key set is its effective
key set), and — when the root `keyCount` counter is 1 — the sole effective
graph key is the reserved `*` and the default graph's `keyCount` counter is
maintained. -/
theorem distinct_subject_count_flat {α : Type} (root : Node (Node α))
    (hflat : childrenFlat root = true) (hone : singleGraphOk root = true) :
    (GenericQuadTree.fromRoot root).distinctSubjectCount =
      some ((GenericQuadTree.fromRoot
        root).distinctC1SubjectsList.toFinset.card) := by
  have hds4 : (GenericQuadTree.fromRoot root).hc4_quads = root := rfl
  have hds3 : (GenericQuadTree.fromRoot root).hc3_trips = root.get "*" := rfl
  rw [GenericQuadTree.distinctSubjectCount, GenericQuadTree.distinctC1SubjectsList,
    hds4, hds3, toFinset_dedup_list]
  by_cases hk : root.keyCt = some 1
  · rw [if_pos hk]
    rw [singleGraphOk, if_pos hk] at hone
    rcases hg : root.get "*" with _ | t
    · rw [hg] at hone; simp at hone
    · rw [hg] at hone
      simp only [Option.map_some', Option.getD_some, Bool.and_eq_true,
        decide_eq_true_eq] at hone
      obtain ⟨hkeys, hct⟩ := hone
      rw [hkeys]
      simp only [List.map_cons, List.map_nil, List.flatten_cons,
        List.flatten_nil, List.append_nil, hg, Option.some_bind]
      rw [hct]
      congr 1
      exact (List.toFinset_card_of_nodup (Node.effKeys_nodup t)).symm
  · rw [if_neg hk]
    congr 1
    have hall := hflat
    unfold childrenFlat at hall
    have hpt : ∀ g ∈ root.effKeys,
        ((fun g => match root.get g with
          | some t => t.ownKeys
          | none => ([] : List String)) g).toFinset =
        ((fun g => match root.get g with
          | some t => t.effKeys
          | none => ([] : List String)) g).toFinset := by
      intro g hgm
      have hb := List.all_eq_true.mp hall g hgm
      rcases hgg : root.get g with _ | t
      · simp [hgg]
      · rw [hgg] at hb
        simp only [Option.map_some', Option.getD_some, decide_eq_true_eq] at hb
        simpa [hgg] using hb
    rw [toFinset_flatten_map_congr root.effKeys _ _ hpt]

/-- Witness for the amended C6 at a two-graph dataset with overlay-free
triples trees. -/
theorem distinct_subject_count_flat_witness :
    (GenericQuadTree.fromRoot exRootFlat).distinctSubjectCount =
      some ((GenericQuadTree.fromRoot
        exRootFlat).distinctC1SubjectsList.toFinset.card) :=
  distinct_subject_count_flat exRootFlat (by decide) (by decide)

/-! ## Spec-modelled quad-tree mutation (claim C4)

The `add` / `delete` mutation algorithms are not under `src/` (only the
generic read-only facade is).  Modelled from the spec: `add` resolves or
creates the path graph → subject → predicate → object-set, inserts the
object if absent, and increments `quadCount` at every level and `keyCount`
at each level where a new key was introduced; `delete` mirrors the
traversal, removes the object, prunes nodes that become empty, and
decrements the counters on the path; both are silent no-ops otherwise.
Starting from the empty tree no node is ever sealed, so the model uses
plain (overlay-free) nodes: association lists with the two counters. -/

/-- Association-list lookup by string key. -/
def alook {β : Type} (l : List (String × β)) (k : String) : Option β :=
  (l.find? (fun pr => pr.1 == k)).map (·.2)

/-- Replace the value at an existing key. -/
def aset {β : Type} (l : List (String × β)) (k : String) (v : β) :
    List (String × β) :=
  l.map (fun pr => if pr.1 = k then (k, v) else pr)

/-- Remove a key. -/
def adel {β : Type} (l : List (String × β)) (k : String) :
    List (String × β) :=
  l.filter (fun pr => pr.1 != k)

/-- Modelled from the spec: the predicate-level node (`ProbsHash`),
predicate key → object-key set, with the two counters. -/
structure Probs where
  pairs : List (String × List String)
  keyCt : Nat
  quadCt : Nat
  deriving DecidableEq, Repr

/-- Modelled from the spec: the subject-level node (`TriplesHash`). -/
structure Trips where
  pairs : List (String × Probs)
  keyCt : Nat
  quadCt : Nat
  deriving DecidableEq, Repr

/-- Modelled from the spec: the graph-level root node (`QuadsHash`). -/
structure Quads where
  pairs : List (String × Trips)
  keyCt : Nat
  quadCt : Nat
  deriving DecidableEq, Repr

/-- Modelled from the spec: insert `(p, o)` into a predicate-level node;
returns the updated node and whether a new quad was stored. -/
def Probs.add (h : Probs) (p o : String) : Probs × Bool :=
  match alook h.pairs p with
  | none => (⟨(p, [o]) :: h.pairs, h.keyCt + 1, h.quadCt + 1⟩, true)
  | some objs =>
    if o ∈ objs then (h, false)
    else (⟨aset h.pairs p (o :: objs), h.keyCt, h.quadCt + 1⟩, true)

/-- Modelled from the spec: insert `(s, p, o)` into a subject-level node. -/
def Trips.add (h : Trips) (s p o : String) : Trips × Bool :=
  match alook h.pairs s with
  | none =>
    (⟨(s, ⟨[(p, [o])], 1, 1⟩) :: h.pairs, h.keyCt + 1, h.quadCt + 1⟩, true)
  | some probs =>
    let r := probs.add p o
    if r.2 then (⟨aset h.pairs s r.1, h.keyCt, h.quadCt + 1⟩, true)
    else (h, false)

/-- Modelled from the spec: insert a quad `(g, s, p, o)` at the root. -/
def Quads.add (h : Quads) (g s p o : String) : Quads × Bool :=
  match alook h.pairs g with
  | none =>
    (⟨(g, ⟨[(s, ⟨[(p, [o])], 1, 1⟩)], 1, 1⟩) :: h.pairs,
      h.keyCt + 1, h.quadCt + 1⟩, true)
  | some trips =>
    let r := trips.add s p o
    if r.2 then (⟨aset h.pairs g r.1, h.keyCt, h.quadCt + 1⟩, true)
    else (h, false)

/-- Modelled from the spec: delete `(p, o)` from a predicate-level node,
pruning an object set that becomes empty. -/
def Probs.del (h : Probs) (p o : String) : Probs × Bool :=
  match alook h.pairs p with
  | none => (h, false)
  | some objs =>
    if o ∈ objs then
      let objs' := objs.erase o
      if objs' = [] then (⟨adel h.pairs p, h.keyCt - 1, h.quadCt - 1⟩, true)
      else (⟨aset h.pairs p objs', h.keyCt, h.quadCt - 1⟩, true)
    else (h, false)

/-- Modelled from the spec: delete `(s, p, o)` from a subject-level node,
pruning a predicate node that becomes empty. -/
def Trips.del (h : Trips) (s p o : String) : Trips × Bool :=
  match alook h.pairs s with
  | none => (h, false)
  | some probs =>
    let r := probs.del p o
    if r.2 then
      if r.1.pairs = [] then (⟨adel h.pairs s, h.keyCt - 1, h.quadCt - 1⟩, true)
      else (⟨aset h.pairs s r.1, h.keyCt, h.quadCt - 1⟩, true)
    else (h, false)

/-- Modelled from the spec: delete a quad `(g, s, p, o)` at the root,
pruning a graph that becomes empty. -/
def Quads.del (h : Quads) (g s p o : String) : Quads × Bool :=
  match alook h.pairs g with
  | none => (h, false)
  | some trips =>
    let r := trips.del s p o
    if r.2 then
      if r.1.pairs = [] then (⟨adel h.pairs g, h.keyCt - 1, h.quadCt - 1⟩, true)
      else (⟨aset h.pairs g r.1, h.keyCt, h.quadCt - 1⟩, true)
    else (h, false)

/-- An `add` or `delete` mutation. -/
inductive QOp where
  | addQ (g s p o : String)
  | delQ (g s p o : String)

/-- The empty root tree. -/
def Quads.nil : Quads := ⟨[], 0, 0⟩

/-- Apply one mutation. -/
def applyQOp (h : Quads) : QOp → Quads
  | .addQ g s p o => (h.add g s p o).1
  | .delQ g s p o => (h.del g s p o).1

/-- Run a sequence of mutations from the empty tree. -/
def runQOps (ops : List QOp) : Quads :=
  ops.foldl applyQOp Quads.nil

/-- Embedding of `get size()` for the modelled tree: the root `quadCount`. -/
def Quads.size (h : Quads) : Nat := h.quadCt

/-- Independent full-traversal recount at the predicate level. -/
def Probs.count (h : Probs) : Nat := (h.pairs.map (fun pr => pr.2.length)).sum

/-- Independent full-traversal recount at the subject level. -/
def Trips.count (h : Trips) : Nat := (h.pairs.map (fun pr => pr.2.count)).sum

/-- Independent full-traversal recount at the root. -/
def Quads.count (h : Quads) : Nat := (h.pairs.map (fun pr => pr.2.count)).sum

/-- Full traversal listing every stored quad `(g, s, p, o)`. -/
def Probs.toListQ (h : Probs) : List (String × String) :=
  (h.pairs.map (fun pr => pr.2.map (fun o => (pr.1, o)))).flatten

def Trips.toListQ (h : Trips) : List (String × String × String) :=
  (h.pairs.map (fun pr => pr.2.toListQ.map (fun q => (pr.1, q)))).flatten

def Quads.toListQ (h : Quads) : List (String × String × String × String) :=
  (h.pairs.map (fun pr => pr.2.toListQ.map (fun q => (pr.1, q)))).flatten

/-- Level-by-level counter coherence: at every node `quadCount` equals the
sum of the `quadCount` of its children (at the leaf level, the size of the
object sets). -/
def Probs.sumOk (h : Probs) : Prop :=
  h.quadCt = (h.pairs.map (fun pr => pr.2.length)).sum

def Trips.sumOk (h : Trips) : Prop :=
  h.quadCt = (h.pairs.map (fun pr => pr.2.quadCt)).sum ∧
    ∀ pr ∈ h.pairs, pr.2.sumOk

def Quads.sumOk (h : Quads) : Prop :=
  h.quadCt = (h.pairs.map (fun pr => pr.2.quadCt)).sum ∧
    ∀ pr ∈ h.pairs, pr.2.sumOk

/-- Well-formedness of a predicate-level node: distinct keys, exact
counters, and nonempty duplicate-free object sets. -/
def Probs.Wf (h : Probs) : Prop :=
  (h.pairs.map (·.1)).Nodup ∧ h.keyCt = h.pairs.length ∧
    h.quadCt = h.count ∧ ∀ pr ∈ h.pairs, pr.2 ≠ [] ∧ pr.2.Nodup

/-- Well-formedness of a subject-level node. -/
def Trips.Wf (h : Trips) : Prop :=
  (h.pairs.map (·.1)).Nodup ∧ h.keyCt = h.pairs.length ∧
    h.quadCt = h.count ∧ ∀ pr ∈ h.pairs, pr.2.Wf ∧ pr.2.pairs ≠ []

/-- Well-formedness of the root. -/
def Quads.Wf (h : Quads) : Prop :=
  (h.pairs.map (·.1)).Nodup ∧ h.keyCt = h.pairs.length ∧
    h.quadCt = h.count ∧ ∀ pr ∈ h.pairs, pr.2.Wf ∧ pr.2.pairs ≠ []

/-! ## Association-list lemmas -/

theorem alook_eq_none_iff {β : Type} {l : List (String × β)} {k : String} :
    alook l k = none ↔ ∀ pr ∈ l, pr.1 ≠ k := by
  unfold alook
  rw [Option.map_eq_none', List.find?_eq_none]
  constructor
  · intro h pr hpr
    simpa using h pr hpr
  · intro h pr hpr
    simpa using h pr hpr

theorem alook_some_mem {β : Type} {l : List (String × β)} {k : String} {v : β}
    (h : alook l k = some v) : (k, v) ∈ l := by
  unfold alook at h
  rcases hf : l.find? (fun pr => pr.1 == k) with _ | pr
  · rw [hf] at h; simp at h
  · rw [hf] at h
    have hmem := List.mem_of_find?_eq_some hf
    have hp := List.find?_some hf
    rcases pr with ⟨a, b⟩
    simp at hp h
    rw [← hp, ← h]
    exact hmem

theorem alook_cons_self {β : Type} (l : List (String × β)) (k : String)
    (v : β) : alook ((k, v) :: l) k = some v := by
  unfold alook
  rw [List.find?_cons_of_pos _ (by simp)]
  rfl

theorem aset_map_fst {β : Type} (l : List (String × β)) (k : String)
    (v : β) : (aset l k v).map (·.1) = l.map (·.1) := by
  unfold aset
  rw [List.map_map]
  apply List.map_congr_left
  intro pr _
  by_cases hk : pr.1 = k
  · simp [hk]
  · simp [hk]

theorem aset_length {β : Type} (l : List (String × β)) (k : String)
    (v : β) : (aset l k v).length = l.length := by
  unfold aset
  rw [List.length_map]

theorem aset_of_not_mem {β : Type} {l : List (String × β)} {k : String}
    (v : β) (h : ∀ pr ∈ l, pr.1 ≠ k) : aset l k v = l := by
  unfold aset
  have hpt : ∀ pr ∈ l, (if pr.1 = k then (k, v) else pr) = id pr := by
    intro pr hpr
    rw [if_neg (h pr hpr)]
    rfl
  rw [List.map_congr_left hpt, List.map_id]

theorem mem_aset {β : Type} {l : List (String × β)} {k : String} {v : β}
    {q : String × β} (h : q ∈ aset l k v) : q = (k, v) ∨ q ∈ l := by
  unfold aset at h
  rcases List.mem_map.mp h with ⟨pr, hpr, hq⟩
  by_cases hk : pr.1 = k
  · rw [if_pos hk] at hq
    exact Or.inl hq.symm
  · rw [if_neg hk] at hq
    exact Or.inr (hq ▸ hpr)

theorem adel_of_not_mem {β : Type} {l : List (String × β)} {k : String}
    (h : ∀ pr ∈ l, pr.1 ≠ k) : adel l k = l := by
  unfold adel
  apply List.filter_eq_self.mpr
  intro pr hpr
  simpa using h pr hpr

theorem adel_map_fst_sublist {β : Type} (l : List (String × β)) (k : String) :
    List.Sublist ((adel l k).map (·.1)) (l.map (·.1)) :=
  (List.filter_sublist l).map (·.1)

theorem mem_adel {β : Type} {l : List (String × β)} {k : String}
    {q : String × β} (h : q ∈ adel l k) : q ∈ l :=
  List.mem_of_mem_filter h

theorem adel_length {β : Type} :
    ∀ (l : List (String × β)) (k : String) (w : β),
      (l.map (·.1)).Nodup → alook l k = some w →
      (adel l k).length + 1 = l.length
  | [], k, w, _, hl => by simp [alook] at hl
  | pr :: l, k, w, hnd, hl => by
    simp only [List.map_cons, List.nodup_cons] at hnd
    by_cases hk : pr.1 = k
    · have hnk : ∀ q ∈ l, q.1 ≠ k := by
        intro q hq he
        exact hnd.1 (List.mem_map.mpr ⟨q, hq, by rw [he, hk]⟩)
      unfold adel
      rw [List.filter_cons_of_neg (by simp [hk])]
      have : adel l k = l := adel_of_not_mem hnk
      unfold adel at this
      rw [this]
      simp
    · unfold alook at hl
      rw [List.find?_cons_of_neg _ (by simp [hk])] at hl
      unfold adel
      rw [List.filter_cons_of_pos (by simp [hk])]
      have := adel_length l k w hnd.2 hl
      unfold adel at this
      simp only [List.length_cons]
      omega

theorem vsum_aset {β : Type} (g : β → Nat) :
    ∀ (l : List (String × β)) (k : String) (v w : β),
      (l.map (·.1)).Nodup → alook l k = some w →
      ((aset l k v).map (fun pr => g pr.2)).sum + g w =
        (l.map (fun pr => g pr.2)).sum + g v
  | [], k, v, w, _, hl => by simp [alook] at hl
  | pr :: l, k, v, w, hnd, hl => by
    simp only [List.map_cons, List.nodup_cons] at hnd
    by_cases hk : pr.1 = k
    · have hw : w = pr.2 := by
        unfold alook at hl
        rw [List.find?_cons_of_pos _ (by simp [hk])] at hl
        simpa using hl.symm
      have hnk : ∀ q ∈ l, q.1 ≠ k := by
        intro q hq he
        exact hnd.1 (List.mem_map.mpr ⟨q, hq, by rw [he, hk]⟩)
      unfold aset
      rw [List.map_cons, if_pos hk]
      have hid : aset l k v = l := aset_of_not_mem v hnk
      unfold aset at hid
      rw [hid, hw]
      simp only [List.map_cons, List.sum_cons]
      omega
    · unfold alook at hl
      rw [List.find?_cons_of_neg _ (by simp [hk])] at hl
      unfold aset
      rw [List.map_cons, if_neg hk]
      have := vsum_aset g l k v w hnd.2 hl
      unfold aset at this
      simp only [List.map_cons, List.sum_cons]
      omega

theorem vsum_adel {β : Type} (g : β → Nat) :
    ∀ (l : List (String × β)) (k : String) (w : β),
      (l.map (·.1)).Nodup → alook l k = some w →
      ((adel l k).map (fun pr => g pr.2)).sum + g w =
        (l.map (fun pr => g pr.2)).sum
  | [], k, w, _, hl => by simp [alook] at hl
  | pr :: l, k, w, hnd, hl => by
    simp only [List.map_cons, List.nodup_cons] at hnd
    by_cases hk : pr.1 = k
    · have hw : w = pr.2 := by
        unfold alook at hl
        rw [List.find?_cons_of_pos _ (by simp [hk])] at hl
        simpa using hl.symm
      have hnk : ∀ q ∈ l, q.1 ≠ k := by
        intro q hq he
        exact hnd.1 (List.mem_map.mpr ⟨q, hq, by rw [he, hk]⟩)
      unfold adel
      rw [List.filter_cons_of_neg (by simp [hk])]
      have hid : adel l k = l := adel_of_not_mem hnk
      unfold adel at hid
      rw [hid, hw]
      simp only [List.map_cons, List.sum_cons]
      omega
    · unfold alook at hl
      rw [List.find?_cons_of_neg _ (by simp [hk])] at hl
      unfold adel
      rw [List.filter_cons_of_pos (by simp [hk])]
      have := vsum_adel g l k w hnd.2 hl
      unfold adel at this
      simp only [List.map_cons, List.sum_cons]
      omega

/-! ## Counter preservation, predicate level -/

theorem probs_add_spec {p o : String} {h : Probs} (hw : h.Wf) :
    (h.add p o).1.Wf ∧ (h.add p o).1.pairs ≠ [] ∧
      ((h.add p o).2 = true → (h.add p o).1.quadCt = h.quadCt + 1) ∧
      ((h.add p o).2 = false → (h.add p o).1 = h) := by
  obtain ⟨hnd, hkey, hqc, hch⟩ := hw
  unfold Probs.count at hqc
  rcases hl : alook h.pairs p with _ | objs
  · simp only [Probs.add, hl]
    refine ⟨⟨?_, ?_, ?_, ?_⟩, by simp, by simp, by simp⟩
    · simp only [List.map_cons, List.nodup_cons]
      refine ⟨?_, hnd⟩
      intro hmem
      rcases List.mem_map.mp hmem with ⟨q, hq, hq1⟩
      exact (alook_eq_none_iff.mp hl q hq) hq1
    · simp [hkey]
    · show h.quadCt + 1 =
        (((p, [o]) :: h.pairs).map (fun pr => pr.2.length)).sum
      simp only [List.map_cons, List.sum_cons, List.length_cons,
        List.length_nil]
      omega
    · intro pr hpr
      rcases List.mem_cons.mp hpr with h1 | h1
      · rw [h1]
        exact ⟨by simp, by simp⟩
      · exact hch pr h1
  · have hm : (p, objs) ∈ h.pairs := alook_some_mem hl
    by_cases ho : o ∈ objs
    · simp only [Probs.add, hl, if_pos ho]
      exact ⟨⟨hnd, hkey, hqc, hch⟩, List.ne_nil_of_mem hm, by simp, by simp⟩
    · simp only [Probs.add, hl, if_neg ho]
      have hv : ((aset h.pairs p (o :: objs)).map
            (fun pr => pr.2.length)).sum + objs.length =
          (h.pairs.map (fun pr => pr.2.length)).sum + (o :: objs).length :=
        vsum_aset (fun x => x.length) h.pairs p (o :: objs) objs hnd hl
      simp only [List.length_cons] at hv
      refine ⟨⟨?_, ?_, ?_, ?_⟩, ?_, by simp, by simp⟩
      · rw [aset_map_fst]
        exact hnd
      · rw [aset_length]
        exact hkey
      · show h.quadCt + 1 =
          ((aset h.pairs p (o :: objs)).map (fun pr => pr.2.length)).sum
        omega
      · intro pr hpr
        rcases mem_aset hpr with h1 | h1
        · rw [h1]
          exact ⟨by simp, List.nodup_cons.mpr ⟨ho, (hch (p, objs) hm).2⟩⟩
        · exact hch pr h1
      · intro hemp
        have hlen := aset_length h.pairs p (o :: objs)
        rw [hemp] at hlen
        have hz : h.pairs = [] := List.length_eq_zero.mp hlen.symm
        rw [hz] at hm
        simp at hm

theorem probs_del_spec {p o : String} {h : Probs} (hw : h.Wf) :
    (h.del p o).1.Wf ∧
      ((h.del p o).2 = true → h.quadCt = (h.del p o).1.quadCt + 1) ∧
      ((h.del p o).2 = false → (h.del p o).1 = h) := by
  obtain ⟨hnd, hkey, hqc, hch⟩ := hw
  unfold Probs.count at hqc
  rcases hl : alook h.pairs p with _ | objs
  · simp only [Probs.del, hl]
    exact ⟨⟨hnd, hkey, hqc, hch⟩, by simp, by simp⟩
  · have hm : (p, objs) ∈ h.pairs := alook_some_mem hl
    have hobj := hch (p, objs) hm
    by_cases ho : o ∈ objs
    · have hel : (objs.erase o).length + 1 = objs.length := by
        rw [List.length_erase_of_mem ho]
        have hnz : objs.length ≠ 0 := by
          intro hz
          rw [List.length_eq_zero.mp hz] at ho
          simp at ho
        omega
      by_cases he : objs.erase o = []
      · simp only [Probs.del, hl, if_pos ho, if_pos he]
        have hlen1 : objs.length = 1 := by
          rw [he] at hel
          simpa using hel.symm
        have hv : ((adel h.pairs p).map (fun pr => pr.2.length)).sum +
              objs.length = (h.pairs.map (fun pr => pr.2.length)).sum :=
          vsum_adel (fun x => x.length) h.pairs p objs hnd hl
        have hal := adel_length h.pairs p objs hnd hl
        refine ⟨⟨?_, ?_, ?_, ?_⟩, fun _ => ?_, by simp⟩
        · exact List.Nodup.sublist (adel_map_fst_sublist h.pairs p) hnd
        · show h.keyCt - 1 = (adel h.pairs p).length
          omega
        · show h.quadCt - 1 =
            ((adel h.pairs p).map (fun pr => pr.2.length)).sum
          omega
        · intro pr hpr
          exact hch pr (mem_adel hpr)
        · show h.quadCt = (h.quadCt - 1) + 1
          omega
      · simp only [Probs.del, hl, if_pos ho, if_neg he]
        have hv : ((aset h.pairs p (objs.erase o)).map
              (fun pr => pr.2.length)).sum + objs.length =
            (h.pairs.map (fun pr => pr.2.length)).sum +
              (objs.erase o).length :=
          vsum_aset (fun x => x.length) h.pairs p (objs.erase o) objs hnd hl
        refine ⟨⟨?_, ?_, ?_, ?_⟩, fun _ => ?_, by simp⟩
        · rw [aset_map_fst]
          exact hnd
        · rw [aset_length]
          exact hkey
        · show h.quadCt - 1 =
            ((aset h.pairs p (objs.erase o)).map (fun pr => pr.2.length)).sum
          omega
        · intro pr hpr
          rcases mem_aset hpr with h1 | h1
          · rw [h1]
            exact ⟨he, hobj.2.erase o⟩
          · exact hch pr h1
        · show h.quadCt = (h.quadCt - 1) + 1
          omega
    · simp only [Probs.del, hl, if_neg ho]
      exact ⟨⟨hnd, hkey, hqc, hch⟩, by simp, by simp⟩

/-! ## Counter preservation, subject and graph levels -/

theorem trips_add_spec {s p o : String} {h : Trips} (hw : h.Wf) :
    (h.add s p o).1.Wf ∧ (h.add s p o).1.pairs ≠ [] ∧
      ((h.add s p o).2 = true → (h.add s p o).1.quadCt = h.quadCt + 1) ∧
      ((h.add s p o).2 = false → (h.add s p o).1 = h) := by
  obtain ⟨hnd, hkey, hqc, hch⟩ := hw
  unfold Trips.count at hqc
  have hP1 : (⟨[(p, [o])], 1, 1⟩ : Probs).Wf :=
    ⟨by simp, by simp, by simp [Probs.count], by simp⟩
  rcases hl : alook h.pairs s with _ | probs
  · simp only [Trips.add, hl]
    refine ⟨⟨?_, ?_, ?_, ?_⟩, by simp, by simp, by simp⟩
    · simp only [List.map_cons, List.nodup_cons]
      refine ⟨?_, hnd⟩
      intro hmem
      rcases List.mem_map.mp hmem with ⟨q, hq, hq1⟩
      exact (alook_eq_none_iff.mp hl q hq) hq1
    · simp [hkey]
    · show h.quadCt + 1 =
        (((s, (⟨[(p, [o])], 1, 1⟩ : Probs)) :: h.pairs).map
          (fun pr => pr.2.count)).sum
      have hc1 : (⟨[(p, [o])], 1, 1⟩ : Probs).count = 1 := by
        simp [Probs.count]
      simp only [List.map_cons, List.sum_cons, hc1]
      omega
    · intro pr hpr
      rcases List.mem_cons.mp hpr with h1 | h1
      · rw [h1]
        exact ⟨hP1, by simp⟩
      · exact hch pr h1
  · have hm : (s, probs) ∈ h.pairs := alook_some_mem hl
    have hpw := hch (s, probs) hm
    obtain ⟨hw', hne', htrue, hfalse⟩ := probs_add_spec (p := p) (o := o) hpw.1
    rcases hr : (probs.add p o).2 with _ | _
    · simp only [Trips.add, hl]
      rw [hr, if_neg (by simp)]
      exact ⟨⟨hnd, hkey, hqc, hch⟩, List.ne_nil_of_mem hm, by simp, by simp⟩
    · simp only [Trips.add, hl]
      rw [hr, if_pos rfl]
      have hv : ((aset h.pairs s (probs.add p o).1).map
            (fun pr => pr.2.count)).sum + probs.count =
          (h.pairs.map (fun pr => pr.2.count)).sum +
            (probs.add p o).1.count :=
        vsum_aset Probs.count h.pairs s (probs.add p o).1 probs hnd hl
      have hq1 : probs.quadCt = probs.count := hpw.1.2.2.1
      have hq2 : (probs.add p o).1.quadCt = (probs.add p o).1.count :=
        hw'.2.2.1
      have hq3 : (probs.add p o).1.quadCt = probs.quadCt + 1 := htrue hr
      refine ⟨⟨?_, ?_, ?_, ?_⟩, ?_, by simp, by simp⟩
      · rw [aset_map_fst]
        exact hnd
      · rw [aset_length]
        exact hkey
      · show h.quadCt + 1 =
          ((aset h.pairs s (probs.add p o).1).map (fun pr => pr.2.count)).sum
        omega
      · intro pr hpr
        rcases mem_aset hpr with h1 | h1
        · rw [h1]
          exact ⟨hw', hne'⟩
        · exact hch pr h1
      · intro hemp
        have hemp' : aset h.pairs s (probs.add p o).1 = [] := hemp
        have hlen := aset_length h.pairs s (probs.add p o).1
        rw [hemp'] at hlen
        have hz : h.pairs = [] := List.length_eq_zero.mp hlen.symm
        rw [hz] at hm
        simp at hm

theorem trips_del_spec {s p o : String} {h : Trips} (hw : h.Wf) :
    (h.del s p o).1.Wf ∧
      ((h.del s p o).2 = true → h.quadCt = (h.del s p o).1.quadCt + 1) ∧
      ((h.del s p o).2 = false → (h.del s p o).1 = h) := by
  obtain ⟨hnd, hkey, hqc, hch⟩ := hw
  unfold Trips.count at hqc
  rcases hl : alook h.pairs s with _ | probs
  · simp only [Trips.del, hl]
    exact ⟨⟨hnd, hkey, hqc, hch⟩, by simp, by simp⟩
  · have hm : (s, probs) ∈ h.pairs := alook_some_mem hl
    have hpw := hch (s, probs) hm
    obtain ⟨hw', htrue, hfalse⟩ := probs_del_spec (p := p) (o := o) hpw.1
    rcases hr : (probs.del p o).2 with _ | _
    · simp only [Trips.del, hl]
      rw [hr, if_neg (by simp)]
      exact ⟨⟨hnd, hkey, hqc, hch⟩, by simp, by simp⟩
    · have hq1 : probs.quadCt = probs.count := hpw.1.2.2.1
      have hq2 : (probs.del p o).1.quadCt = (probs.del p o).1.count :=
        hw'.2.2.1
      have hq3 : probs.quadCt = (probs.del p o).1.quadCt + 1 := htrue hr
      by_cases he : (probs.del p o).1.pairs = []
      · simp only [Trips.del, hl]
        rw [hr, if_pos rfl, if_pos he]
        have hz : (probs.del p o).1.count = 0 := by
          unfold Probs.count
          rw [he]
          simp
        have hv : ((adel h.pairs s).map (fun pr => pr.2.count)).sum +
              probs.count = (h.pairs.map (fun pr => pr.2.count)).sum :=
          vsum_adel Probs.count h.pairs s probs hnd hl
        have hal := adel_length h.pairs s probs hnd hl
        refine ⟨⟨?_, ?_, ?_, ?_⟩, fun _ => ?_, by simp⟩
        · exact List.Nodup.sublist (adel_map_fst_sublist h.pairs s) hnd
        · show h.keyCt - 1 = (adel h.pairs s).length
          omega
        · show h.quadCt - 1 =
            ((adel h.pairs s).map (fun pr => pr.2.count)).sum
          omega
        · intro pr hpr
          exact hch pr (mem_adel hpr)
        · show h.quadCt = (h.quadCt - 1) + 1
          omega
      · simp only [Trips.del, hl]
        rw [hr, if_pos rfl, if_neg he]
        have hv : ((aset h.pairs s (probs.del p o).1).map
              (fun pr => pr.2.count)).sum + probs.count =
            (h.pairs.map (fun pr => pr.2.count)).sum +
              (probs.del p o).1.count :=
          vsum_aset Probs.count h.pairs s (probs.del p o).1 probs hnd hl
        refine ⟨⟨?_, ?_, ?_, ?_⟩, fun _ => ?_, by simp⟩
        · rw [aset_map_fst]
          exact hnd
        · rw [aset_length]
          exact hkey
        · show h.quadCt - 1 =
            ((aset h.pairs s (probs.del p o).1).map
              (fun pr => pr.2.count)).sum
          omega
        · intro pr hpr
          rcases mem_aset hpr with h1 | h1
          · rw [h1]
            exact ⟨hw', he⟩
          · exact hch pr h1
        · show h.quadCt = (h.quadCt - 1) + 1
          omega

theorem quads_add_spec {g s p o : String} {h : Quads} (hw : h.Wf) :
    (h.add g s p o).1.Wf ∧
      ((h.add g s p o).2 = true → (h.add g s p o).1.quadCt = h.quadCt + 1) ∧
      ((h.add g s p o).2 = false → (h.add g s p o).1 = h) := by
  obtain ⟨hnd, hkey, hqc, hch⟩ := hw
  unfold Quads.count at hqc
  have hP1 : (⟨[(p, [o])], 1, 1⟩ : Probs).Wf :=
    ⟨by simp, by simp, by simp [Probs.count], by simp⟩
  have hT1 : (⟨[(s, ⟨[(p, [o])], 1, 1⟩)], 1, 1⟩ : Trips).Wf := by
    refine ⟨by simp, by simp, by simp [Trips.count, Probs.count], ?_⟩
    intro pr hpr
    simp only [List.mem_singleton] at hpr
    rw [hpr]
    exact ⟨hP1, by simp⟩
  rcases hl : alook h.pairs g with _ | trips
  · simp only [Quads.add, hl]
    refine ⟨⟨?_, ?_, ?_, ?_⟩, by simp, by simp⟩
    · simp only [List.map_cons, List.nodup_cons]
      refine ⟨?_, hnd⟩
      intro hmem
      rcases List.mem_map.mp hmem with ⟨q, hq, hq1⟩
      exact (alook_eq_none_iff.mp hl q hq) hq1
    · simp [hkey]
    · show h.quadCt + 1 =
        (((g, (⟨[(s, ⟨[(p, [o])], 1, 1⟩)], 1, 1⟩ : Trips)) :: h.pairs).map
          (fun pr => pr.2.count)).sum
      have hc1 : (⟨[(s, ⟨[(p, [o])], 1, 1⟩)], 1, 1⟩ : Trips).count = 1 := by
        simp [Trips.count, Probs.count]
      simp only [List.map_cons, List.sum_cons, hc1]
      omega
    · intro pr hpr
      rcases List.mem_cons.mp hpr with h1 | h1
      · rw [h1]
        exact ⟨hT1, by simp⟩
      · exact hch pr h1
  · have hm : (g, trips) ∈ h.pairs := alook_some_mem hl
    have hpw := hch (g, trips) hm
    obtain ⟨hw', hne', htrue, hfalse⟩ :=
      trips_add_spec (s := s) (p := p) (o := o) hpw.1
    rcases hr : (trips.add s p o).2 with _ | _
    · simp only [Quads.add, hl]
      rw [hr, if_neg (by simp)]
      exact ⟨⟨hnd, hkey, hqc, hch⟩, by simp, by simp⟩
    · simp only [Quads.add, hl]
      rw [hr, if_pos rfl]
      have hv : ((aset h.pairs g (trips.add s p o).1).map
            (fun pr => pr.2.count)).sum + trips.count =
          (h.pairs.map (fun pr => pr.2.count)).sum +
            (trips.add s p o).1.count :=
        vsum_aset Trips.count h.pairs g (trips.add s p o).1 trips hnd hl
      have hq1 : trips.quadCt = trips.count := hpw.1.2.2.1
      have hq2 : (trips.add s p o).1.quadCt = (trips.add s p o).1.count :=
        hw'.2.2.1
      have hq3 : (trips.add s p o).1.quadCt = trips.quadCt + 1 := htrue hr
      refine ⟨⟨?_, ?_, ?_, ?_⟩, by simp, by simp⟩
      · rw [aset_map_fst]
        exact hnd
      · rw [aset_length]
        exact hkey
      · show h.quadCt + 1 =
          ((aset h.pairs g (trips.add s p o).1).map
            (fun pr => pr.2.count)).sum
        omega
      · intro pr hpr
        rcases mem_aset hpr with h1 | h1
        · rw [h1]
          exact ⟨hw', hne'⟩
        · exact hch pr h1

theorem quads_del_spec {g s p o : String} {h : Quads} (hw : h.Wf) :
    (h.del g s p o).1.Wf ∧
      ((h.del g s p o).2 = true →
        h.quadCt = (h.del g s p o).1.quadCt + 1) ∧
      ((h.del g s p o).2 = false → (h.del g s p o).1 = h) := by
  obtain ⟨hnd, hkey, hqc, hch⟩ := hw
  unfold Quads.count at hqc
  rcases hl : alook h.pairs g with _ | trips
  · simp only [Quads.del, hl]
    exact ⟨⟨hnd, hkey, hqc, hch⟩, by simp, by simp⟩
  · have hm : (g, trips) ∈ h.pairs := alook_some_mem hl
    have hpw := hch (g, trips) hm
    obtain ⟨hw', htrue, hfalse⟩ :=
      trips_del_spec (s := s) (p := p) (o := o) hpw.1
    rcases hr : (trips.del s p o).2 with _ | _
    · simp only [Quads.del, hl]
      rw [hr, if_neg (by simp)]
      exact ⟨⟨hnd, hkey, hqc, hch⟩, by simp, by simp⟩
    · have hq1 : trips.quadCt = trips.count := hpw.1.2.2.1
      have hq2 : (trips.del s p o).1.quadCt = (trips.del s p o).1.count :=
        hw'.2.2.1
      have hq3 : trips.quadCt = (trips.del s p o).1.quadCt + 1 := htrue hr
      by_cases he : (trips.del s p o).1.pairs = []
      · simp only [Quads.del, hl]
        rw [hr, if_pos rfl, if_pos he]
        have hz : (trips.del s p o).1.count = 0 := by
          unfold Trips.count
          rw [he]
          simp
        have hv : ((adel h.pairs g).map (fun pr => pr.2.count)).sum +
              trips.count = (h.pairs.map (fun pr => pr.2.count)).sum :=
          vsum_adel Trips.count h.pairs g trips hnd hl
        have hal := adel_length h.pairs g trips hnd hl
        refine ⟨⟨?_, ?_, ?_, ?_⟩, fun _ => ?_, by simp⟩
        · exact List.Nodup.sublist (adel_map_fst_sublist h.pairs g) hnd
        · show h.keyCt - 1 = (adel h.pairs g).length
          omega
        · show h.quadCt - 1 =
            ((adel h.pairs g).map (fun pr => pr.2.count)).sum
          omega
        · intro pr hpr
          exact hch pr (mem_adel hpr)
        · show h.quadCt = (h.quadCt - 1) + 1
          omega
      · simp only [Quads.del, hl]
        rw [hr, if_pos rfl, if_neg he]
        have hv : ((aset h.pairs g (trips.del s p o).1).map
              (fun pr => pr.2.count)).sum + trips.count =
            (h.pairs.map (fun pr => pr.2.count)).sum +
              (trips.del s p o).1.count :=
          vsum_aset Trips.count h.pairs g (trips.del s p o).1 trips hnd hl
        refine ⟨⟨?_, ?_, ?_, ?_⟩, fun _ => ?_, by simp⟩
        · rw [aset_map_fst]
          exact hnd
        · rw [aset_length]
          exact hkey
        · show h.quadCt - 1 =
            ((aset h.pairs g (trips.del s p o).1).map
              (fun pr => pr.2.count)).sum
          omega
        · intro pr hpr
          rcases mem_aset hpr with h1 | h1
          · rw [h1]
            exact ⟨hw', he⟩
          · exact hch pr h1
        · show h.quadCt = (h.quadCt - 1) + 1
          omega

/-! ## Reachable states and the counter invariant -/

theorem Quads.nil_wf : Quads.nil.Wf := by
  refine ⟨by simp [Quads.nil], by simp [Quads.nil],
    by simp [Quads.nil, Quads.count], ?_⟩
  intro pr hpr
  simp [Quads.nil] at hpr

theorem applyQOp_wf {h : Quads} (hw : h.Wf) (op : QOp) :
    (applyQOp h op).Wf := by
  cases op with
  | addQ g s p o => exact (quads_add_spec hw).1
  | delQ g s p o => exact (quads_del_spec hw).1

theorem foldl_applyQOp_wf :
    ∀ (ops : List QOp) (h : Quads), h.Wf → (ops.foldl applyQOp h).Wf
  | [], _, hw => hw
  | op :: ops, h, hw => foldl_applyQOp_wf ops _ (applyQOp_wf hw op)

theorem runQOps_wf (ops : List QOp) : (runQOps ops).Wf :=
  foldl_applyQOp_wf ops Quads.nil Quads.nil_wf

theorem probs_toListQ_length (h : Probs) : h.toListQ.length = h.count := by
  unfold Probs.toListQ Probs.count
  rw [List.length_flatten, List.map_map]
  congr 1
  apply List.map_congr_left
  intro pr _
  simp

theorem trips_toListQ_length (h : Trips) : h.toListQ.length = h.count := by
  unfold Trips.toListQ Trips.count
  rw [List.length_flatten, List.map_map]
  congr 1
  apply List.map_congr_left
  intro pr _
  simp [probs_toListQ_length]

theorem quads_toListQ_length (h : Quads) : h.toListQ.length = h.count := by
  unfold Quads.toListQ Quads.count
  rw [List.length_flatten, List.map_map]
  congr 1
  apply List.map_congr_left
  intro pr _
  simp [trips_toListQ_length]

theorem mem_keyed_flatten {β γ : Type} {l : List (String × β)}
    {f : β → List γ} {x : String × γ}
    (hx : x ∈ (l.map (fun pr => (f pr.2).map (fun q => (pr.1, q)))).flatten) :
    x.1 ∈ l.map (·.1) := by
  rcases List.mem_flatten.mp hx with ⟨xs, hxs, hxm⟩
  rcases List.mem_map.mp hxs with ⟨pr, hpr, rfl⟩
  rcases List.mem_map.mp hxm with ⟨q, hq, rfl⟩
  exact List.mem_map.mpr ⟨pr, hpr, rfl⟩

theorem nodup_keyed_flatten {β γ : Type} :
    ∀ (l : List (String × β)) (f : β → List γ),
      (l.map (·.1)).Nodup → (∀ pr ∈ l, (f pr.2).Nodup) →
      ((l.map (fun pr => (f pr.2).map (fun q => (pr.1, q)))).flatten).Nodup
  | [], _, _, _ => by simp
  | pr :: l, f, hnd, hf => by
    simp only [List.map_cons, List.nodup_cons] at hnd
    simp only [List.map_cons, List.flatten_cons]
    rw [List.nodup_append]
    refine ⟨?_, ?_, ?_⟩
    · exact List.Nodup.map (fun a b hab => congrArg Prod.snd hab)
        (hf pr (by simp))
    · exact nodup_keyed_flatten l f hnd.2
        (fun q hq => hf q (by simp [hq]))
    · intro x hx1 hx2
      rcases List.mem_map.mp hx1 with ⟨q, hq, rfl⟩
      exact hnd.1 (mem_keyed_flatten (f := f) (x := (pr.1, q)) hx2)

theorem probs_toListQ_nodup (h : Probs) (hw : h.Wf) : h.toListQ.Nodup :=
  nodup_keyed_flatten h.pairs (fun x => x) hw.1
    (fun pr hpr => (hw.2.2.2 pr hpr).2)

theorem trips_toListQ_nodup (h : Trips) (hw : h.Wf) : h.toListQ.Nodup :=
  nodup_keyed_flatten h.pairs Probs.toListQ hw.1
    (fun pr hpr => probs_toListQ_nodup pr.2 (hw.2.2.2 pr hpr).1)

theorem quads_toListQ_nodup (h : Quads) (hw : h.Wf) : h.toListQ.Nodup :=
  nodup_keyed_flatten h.pairs Trips.toListQ hw.1
    (fun pr hpr => trips_toListQ_nodup pr.2 (hw.2.2.2 pr hpr).1)

theorem probs_sumOk_of_wf (h : Probs) (hw : h.Wf) : h.sumOk :=
  hw.2.2.1

theorem trips_sumOk_of_wf (h : Trips) (hw : h.Wf) : h.sumOk := by
  refine ⟨?_, fun pr hpr => probs_sumOk_of_wf pr.2 (hw.2.2.2 pr hpr).1⟩
  rw [hw.2.2.1]
  unfold Trips.count
  congr 1
  apply List.map_congr_left
  intro pr hpr
  exact ((hw.2.2.2 pr hpr).1).2.2.1.symm

theorem quads_sumOk_of_wf (h : Quads) (hw : h.Wf) : h.sumOk := by
  refine ⟨?_, fun pr hpr => trips_sumOk_of_wf pr.2 (hw.2.2.2 pr hpr).1⟩
  rw [hw.2.2.1]
  unfold Quads.count
  congr 1
  apply List.map_congr_left
  intro pr hpr
  exact ((hw.2.2.2 pr hpr).1).2.2.1.symm

/-- C4: for every state reachable by any sequence of `add` / `delete`
operations from the empty tree, the root `quadCount` counter — which the
`size` accessor returns — equals the number of distinct quads currently
stored as counted by an independent full traversal (the traversal list has
no duplicates and its length is the counter), and at every node `quadCount`
equals the sum of its children's `quadCount`s (at the leaf level, the size
of the object sets). -/
theorem quad_counters_consistent (ops : List QOp) :
    (runQOps ops).size = (runQOps ops).toListQ.length ∧
      (runQOps ops).toListQ.Nodup ∧ (runQOps ops).sumOk := by
  have hw : (runQOps ops).Wf := runQOps_wf ops
  refine ⟨?_, quads_toListQ_nodup _ hw, quads_sumOk_of_wf _ hw⟩
  rw [quads_toListQ_length]
  exact hw.2.2.1
